import Mathlib

/-!
Verification of the character-budget pagination subsystem of the
langsmith-mcp-server repository (src/common/pagination.ts, plus the budget
clamp applied by the tool layer in src/services/register-tools.ts).

The TypeScript code is shallowly embedded as follows.

* JSON-serializable values (the `unknown` values paginated by the code)
  become the inductive type `Json`: null, booleans, numbers, strings,
  arrays and insertion-ordered string-keyed objects.  Numbers are modelled
  as integers (the program paginates API payloads whose numeric fields are
  integers after the serialization step; the bigint replacer in the source
  is subsumed by this choice).  JavaScript string lengths (UTF-16 code
  units) are modelled by `String.length`; every character
  appearing in the program's own literals lies in the BMP, where the two
  coincide.
* `JSON.stringify(value)` (compact form, `indent = 0`; every call site of
  the pagination module uses the compact default) becomes `serialize`,
  including the standard JSON string escaping.  JavaScript renders the
  elided-character counts with decimal notation, modelled by `decRepr`.
* JavaScript objects become association lists `List (String × Json)` in
  insertion order; object-literal / spread update semantics (overwriting an
  existing key keeps its position, a new key is appended) become `dictSet`.
* The `while (low <= high)` binary-search loop of `enforcePageCharBudget`
  becomes the fuel-indexed `searchGo`; the interval width strictly
  decreases on every iteration, so a fuel of 100002 (one more than the
  initial width of [0, 100000]) can never be exhausted
  (`searchGo_fuel_irrelevant` makes this precise).
-/

/-- JSON-like values: the `unknown` values manipulated by pagination.ts. -/
inductive Json where
  | null : Json
  | bool (b : Bool) : Json
  | num (n : Int) : Json
  | str (s : String) : Json
  | arr (elems : List Json) : Json
  | obj (fields : List (String × Json)) : Json

/-- Decimal digits of a natural number, most significant first, accumulated
onto `acc`.  The first argument is fuel: one iteration strips one decimal
digit, and `n` itself always bounds the digit count, so `decDigitsCore
(n + 1) n acc` is total and fuel is never exhausted. -/
def decDigitsCore : Nat → Nat → List Char → List Char
  | 0, _, acc => acc
  | fuel + 1, n, acc =>
    let d := Char.ofNat (48 + n % 10)
    if n < 10 then d :: acc else decDigitsCore fuel (n / 10) (d :: acc)

/-- Decimal rendering of a natural number, as JavaScript renders a
nonnegative integer into a string. -/
def decRepr (n : Nat) : String :=
  String.mk (decDigitsCore (n + 1) n [])

/-- Decimal rendering of an integer, as JavaScript renders an integer. -/
def intRepr (n : Int) : String :=
  if n < 0 then "-" ++ decRepr (-n).toNat else decRepr n.toNat

/-- Lower-case hexadecimal digit, used by the `\u00XX` escapes of
`JSON.stringify`. -/
def hexDigit (n : Nat) : Char :=
  if n < 10 then Char.ofNat (48 + n) else Char.ofNat (87 + n)

/-- JSON escaping of one character, exactly as `JSON.stringify` quotes
string values: quote and backslash get a backslash escape, the five named
control escapes are used, remaining control characters become `\u00XX`,
and every other character stands for itself. -/
def escapeChar (c : Char) : String :=
  if c = Char.ofNat 34 then String.mk [Char.ofNat 92, Char.ofNat 34]
  else if c = Char.ofNat 92 then String.mk [Char.ofNat 92, Char.ofNat 92]
  else if c = Char.ofNat 8 then String.mk [Char.ofNat 92, Char.ofNat 98]
  else if c = Char.ofNat 12 then String.mk [Char.ofNat 92, Char.ofNat 102]
  else if c = Char.ofNat 10 then String.mk [Char.ofNat 92, Char.ofNat 110]
  else if c = Char.ofNat 13 then String.mk [Char.ofNat 92, Char.ofNat 114]
  else if c = Char.ofNat 9 then String.mk [Char.ofNat 92, Char.ofNat 116]
  else if c.toNat < 32 then
    String.mk [Char.ofNat 92, Char.ofNat 117, Char.ofNat 48, Char.ofNat 48,
      hexDigit (c.toNat / 16), hexDigit (c.toNat % 16)]
  else String.mk [c]

/-- JSON escaping of a character list. -/
def escList : List Char → List Char
  | [] => []
  | c :: cs => (escapeChar c).data ++ escList cs

/-- JSON escaping of a string (the body placed between the quotes). -/
def escapeString (s : String) : String :=
  String.mk (escList s.data)

mutual

/-- Compact `JSON.stringify` of a JSON value (the form used by
`runCharCount` and `pageOutputSize` in pagination.ts, which always
serialize with `indent = 0`, i.e. no whitespace). -/
def serialize : Json → String
  | Json.null => "null"
  | Json.bool true => "true"
  | Json.bool false => "false"
  | Json.num n => intRepr n
  | Json.str s => "\x22" ++ escapeString s ++ "\x22"
  | Json.arr xs => "[" ++ serializeElems xs ++ "]"
  | Json.obj kvs => "\x7b" ++ serializeFields kvs ++ "\x7d"

/-- Comma-separated serialization of array elements. -/
def serializeElems : List Json → String
  | [] => ""
  | [x] => serialize x
  | x :: y :: rest => serialize x ++ "," ++ serializeElems (y :: rest)

/-- Comma-separated serialization of object fields. -/
def serializeFields : List (String × Json) → String
  | [] => ""
  | [(k, v)] => "\x22" ++ escapeString k ++ "\x22:" ++ serialize v
  | (k, v) :: kv2 :: rest =>
    "\x22" ++ escapeString k ++ "\x22:" ++ serialize v ++ "," ++
      serializeFields (kv2 :: rest)

end

/-- First `n` characters of a string, as the JavaScript `slice(0, n)` used
by `truncateStrings` and by the degraded-fallback preview. -/
def strTake (s : String) (n : Nat) : String :=
  String.mk (s.data.take n)

mutual

/-- Model of `truncateStrings(obj, previewChars)` (pagination.ts lines
15-41): for `previewChars <= 0` the identity; long strings are cut to the
first `previewChars` characters plus the marker
`… (+<elided> chars)`; objects and arrays are rebuilt recursively;
other values are returned unchanged. -/
def truncateStrings (v : Json) (previewChars : Int) : Json :=
  if previewChars ≤ 0 then v
  else
    match v with
    | Json.str s =>
      if (s.length : Int) ≤ previewChars then Json.str s
      else
        Json.str (strTake s previewChars.toNat ++ "… (+" ++
          decRepr (s.length - previewChars.toNat) ++ " chars)")
    | Json.obj kvs => Json.obj (truncateFields kvs previewChars)
    | Json.arr xs => Json.arr (truncateElems xs previewChars)
    | other => other

/-- `array.map(item => truncateStrings(item, previewChars))`. -/
def truncateElems (xs : List Json) (previewChars : Int) : List Json :=
  match xs with
  | [] => []
  | x :: rest => truncateStrings x previewChars :: truncateElems rest previewChars

/-- Rebuilding of an object's entries with every value truncated; keys are
never truncated. -/
def truncateFields (kvs : List (String × Json)) (previewChars : Int) :
    List (String × Json) :=
  match kvs with
  | [] => []
  | (k, v) :: rest =>
    (k, truncateStrings v previewChars) :: truncateFields rest previewChars

end

/-- `runCharCount` (pagination.ts lines 46-50): character count of the
JSON-serialized run. -/
def runCharCount (run : Json) : Nat :=
  (serialize run).length

/-- `pageOutputSize` with the default compact indent (pagination.ts lines
55-64): character count of the full page JSON. -/
def pageOutputSize (pageDict : List (String × Json)) : Nat :=
  (serialize (Json.obj pageDict)).length

/-- Property-read `pageDict[key]` on a JavaScript object modelled as an
insertion-ordered association list. -/
def dictGet (d : List (String × Json)) (key : String) : Option Json :=
  match d with
  | [] => none
  | (k, v) :: rest => if k = key then some v else dictGet rest key

/-- Object-literal / spread update `{...d, [key]: v}`: an existing key is
overwritten in place, a new key is appended at the end. -/
def dictSet (d : List (String × Json)) (key : String) (v : Json) :
    List (String × Json) :=
  match d with
  | [] => [(key, v)]
  | (k, w) :: rest =>
    if k = key then (k, v) :: rest else (k, w) :: dictSet rest key v

/-- JavaScript nullish coalescing `x ?? dflt` applied to a property read:
`undefined` (missing key) and `null` both fall through to the default. -/
def jsNullish (x : Option Json) (dflt : Json) : Json :=
  match x with
  | none => dflt
  | some Json.null => dflt
  | some v => v

/-- Suffix appended to the degraded-fallback preview (pagination.ts line
121). -/
def truncatedSuffix : String :=
  "\n… (output truncated, exceeded max_chars_per_page)"

/-- Preview budget of the degraded fallback (pagination.ts lines 122-124):
`Math.max(100, (maxCharsPerPage - suffix.length - 1000) / 2)`.  The
JavaScript expression is a float later floored by `slice`; `Nat`
subtraction and division produce the same character count (a negative or
small float falls under the floor of 100, where truncated subtraction also
lands). -/
def previewMaxFor (maxCharsPerPage : Nat) : Nat :=
  max 100 ((maxCharsPerPage - truncatedSuffix.length - 1000) / 2)

/-- Degraded-fallback page construction (pagination.ts lines 116-139): the
object literal keeps every non-items entry of `pageDict` in place, empties
the items, restates the metadata, and appends the `_truncated` diagnostic
fields. -/
def degradedFallbackPage (pageDict best : List (String × Json))
    (maxCharsPerPage : Nat) (itemsKey : String) : List (String × Json) :=
  let jsonStr := serialize (Json.obj best)
  let truncatedPreview :=
    strTake jsonStr (previewMaxFor maxCharsPerPage) ++ truncatedSuffix
  let base := (pageDict.filter (fun kv => !(kv.1 == itemsKey))) ++
    [(itemsKey, Json.arr [])]
  let d1 := dictSet base "page_number" (jsNullish (dictGet pageDict "page_number") Json.null)
  let d2 := dictSet d1 "total_pages" (jsNullish (dictGet pageDict "total_pages") Json.null)
  let d3 := dictSet d2 "max_chars_per_page" (Json.num (maxCharsPerPage : Int))
  let d4 := dictSet d3 "preview_chars" (jsNullish (dictGet pageDict "preview_chars") (Json.num 0))
  let d5 := dictSet d4 "_truncated" (Json.bool true)
  let d6 := dictSet d5 "_truncated_message"
    (Json.str "Page exceeded character budget; content truncated.")
  dictSet d6 "_truncated_preview" (Json.str truncatedPreview)

/-- Binary-search loop of `enforcePageCharBudget` (pagination.ts lines
94-112).  The first argument is fuel; the width of `[low, high]` strictly
decreases each iteration, so the fuel of 100002 supplied by
`enforcePageCharBudget` is never exhausted. -/
def searchGo (pageDict : List (String × Json)) (items : List Json)
    (maxCharsPerPage : Nat) (itemsKey : String) :
    Nat → Int → Int → List (String × Json) → List (String × Json)
  | 0, _, _, best => best
  | fuel + 1, low, high, best =>
    if low ≤ high then
      let mid := (low + high) / 2
      let truncatedItems := truncateElems items mid
      let testDict := dictSet pageDict itemsKey (Json.arr truncatedItems)
      if pageOutputSize testDict ≤ maxCharsPerPage then
        searchGo pageDict items maxCharsPerPage itemsKey fuel (mid + 1) high testDict
      else
        searchGo pageDict items maxCharsPerPage itemsKey fuel low (mid - 1) best
    else best

/-- Model of `enforcePageCharBudget(pageDict, maxCharsPerPage, {itemsKey})`
(pagination.ts lines 78-143) with the compact default indent used at every
call site.  A missing, null, or otherwise falsy items entry returns the
page unchanged, as does an empty items array (a truthy non-array entry
would throw in JavaScript and is unreachable from the paginate entry
points, which always store an array under the items key). -/
def enforcePageCharBudget (pageDict : List (String × Json))
    (maxCharsPerPage : Nat) (itemsKey : String) : List (String × Json) :=
  if pageOutputSize pageDict ≤ maxCharsPerPage then pageDict
  else
    match dictGet pageDict itemsKey with
    | some (Json.arr items) =>
      if items.isEmpty then pageDict
      else
        let best := searchGo pageDict items maxCharsPerPage itemsKey
          100002 0 100000 pageDict
        if maxCharsPerPage < pageOutputSize best then
          degradedFallbackPage pageDict best maxCharsPerPage itemsKey
        else best
    | _ => pageDict

/-- Accumulating loop of `buildPagesByCharBudget` (pagination.ts lines
157-174): greedy packing of runs into pages by serialized character
count. -/
def buildPagesGo (maxCharsPerPage : Nat) :
    List Json → List (List Json) → List Json → Nat → List (List Json)
  | [], pages, currentPage, _ =>
    if currentPage.isEmpty then pages else pages ++ [currentPage]
  | run :: rest, pages, currentPage, currentChars =>
    let runChars := runCharCount run
    if maxCharsPerPage < currentChars + runChars ∧ currentPage.isEmpty = false then
      buildPagesGo maxCharsPerPage rest (pages ++ [currentPage]) [run] runChars
    else
      buildPagesGo maxCharsPerPage rest pages (currentPage ++ [run])
        (currentChars + runChars)

/-- Model of `buildPagesByCharBudget(runsDict, maxCharsPerPage)`
(pagination.ts lines 149-177). -/
def buildPagesByCharBudget (runsDict : List Json) (maxCharsPerPage : Nat) :
    List (List Json) :=
  if runsDict.isEmpty then [] else buildPagesGo maxCharsPerPage runsDict [] [] 0

/-- Model of `paginateRuns(runsDict, pageNumber, maxCharsPerPage,
previewChars)` (pagination.ts lines 190-221). -/
def paginateRuns (runsDict : List Json) (pageNumber : Int)
    (maxCharsPerPage : Nat) (previewChars : Int) : List (String × Json) :=
  let runs := if 0 < previewChars then truncateElems runsDict previewChars else runsDict
  let pages := buildPagesByCharBudget runs maxCharsPerPage
  let totalPages : Nat := pages.length
  let pageRuns : List Json :=
    if pageNumber < 1 ∨ (totalPages : Int) < pageNumber then []
    else pages.getD (pageNumber - 1).toNat []
  let out : List (String × Json) :=
    [("runs", Json.arr pageRuns),
     ("page_number", Json.num pageNumber),
     ("total_pages", Json.num (totalPages : Int)),
     ("max_chars_per_page", Json.num (maxCharsPerPage : Int)),
     ("preview_chars", Json.num previewChars)]
  enforcePageCharBudget out maxCharsPerPage "runs"

/-- Model of `paginateMessages(messagesDict, pageNumber, maxCharsPerPage,
previewChars)` (pagination.ts lines 227-258): identical to `paginateRuns`
except the item list is stored under the key `result`. -/
def paginateMessages (messagesDict : List Json) (pageNumber : Int)
    (maxCharsPerPage : Nat) (previewChars : Int) : List (String × Json) :=
  let messages :=
    if 0 < previewChars then truncateElems messagesDict previewChars else messagesDict
  let pages := buildPagesByCharBudget messages maxCharsPerPage
  let totalPages : Nat := pages.length
  let pageMessages : List Json :=
    if pageNumber < 1 ∨ (totalPages : Int) < pageNumber then []
    else pages.getD (pageNumber - 1).toNat []
  let out : List (String × Json) :=
    [("result", Json.arr pageMessages),
     ("page_number", Json.num pageNumber),
     ("total_pages", Json.num (totalPages : Int)),
     ("max_chars_per_page", Json.num (maxCharsPerPage : Int)),
     ("preview_chars", Json.num previewChars)]
  enforcePageCharBudget out maxCharsPerPage "result"

/-- Hard budget ceiling of the tool layer (register-tools.ts line 794). -/
def MAX_CHARS_PER_PAGE_TRACE : Nat := 30000

/-- Budget computation of `fetchRunsTool` (register-tools.ts lines
1117-1120): `Math.min(options.maxCharsPerPage ?? 25000,
MAX_CHARS_PER_PAGE_TRACE)`, applied before `paginateRuns` is called. -/
def fetchRunsEffectiveBudget (requestedMaxCharsPerPage : Option Nat) : Nat :=
  min (requestedMaxCharsPerPage.getD 25000) MAX_CHARS_PER_PAGE_TRACE

/-- Budget computation of `getThreadHistoryTool` (register-tools.ts line
919): `maxCharsPerPage = Math.min(maxCharsPerPage,
MAX_CHARS_PER_PAGE_TRACE)`, applied before `paginateMessages` is called
(the parameter defaults to 25000 when the caller omits it). -/
def getThreadHistoryEffectiveBudget (maxCharsPerPage : Nat) : Nat :=
  min maxCharsPerPage MAX_CHARS_PER_PAGE_TRACE

/-- Structural induction principle for `Json` with membership hypotheses for
the nested lists. -/
def jsonInduction (P : Json → Prop)
    (hnull : P Json.null) (hbool : ∀ b, P (Json.bool b)) (hnum : ∀ n, P (Json.num n))
    (hstr : ∀ s, P (Json.str s))
    (harr : ∀ xs, (∀ x ∈ xs, P x) → P (Json.arr xs))
    (hobj : ∀ kvs, (∀ kv ∈ kvs, P kv.2) → P (Json.obj kvs)) :
    ∀ v, P v
  | Json.null => hnull
  | Json.bool b => hbool b
  | Json.num n => hnum n
  | Json.str s => hstr s
  | Json.arr xs => harr xs (fun x hx => jsonInduction P hnull hbool hnum hstr harr hobj x)
  | Json.obj kvs => hobj kvs (fun kv hkv => jsonInduction P hnull hbool hnum hstr harr hobj kv.2)
termination_by v => sizeOf v
decreasing_by
  · have hlt := List.sizeOf_lt_of_mem hx
    simp only [Json.arr.sizeOf_spec]
    omega
  · have hlt := List.sizeOf_lt_of_mem hkv
    have hkv2 : sizeOf kv.2 < sizeOf kv := by
      obtain ⟨a, b⟩ := kv
      simp only [Prod.mk.sizeOf_spec]
      omega
    simp only [Json.obj.sizeOf_spec]
    omega

mutual

/-- Every string leaf of `v` has length at most `n`. -/
def allStrLe (v : Json) (n : Int) : Bool :=
  match v with
  | Json.str s => (s.length : Int) ≤ n
  | Json.arr xs => allStrLeElems xs n
  | Json.obj kvs => allStrLeFields kvs n
  | _ => true

/-- Every string leaf of every element has length at most `n`. -/
def allStrLeElems (xs : List Json) (n : Int) : Bool :=
  match xs with
  | [] => true
  | x :: rest => allStrLe x n && allStrLeElems rest n

/-- Every string leaf of every field value has length at most `n`. -/
def allStrLeFields (kvs : List (String × Json)) (n : Int) : Bool :=
  match kvs with
  | [] => true
  | kv :: rest => allStrLe kv.2 n && allStrLeFields rest n

end

mutual

/-- No string leaf of `v` has a length inside the half-open window
`(low, high]`: every string leaf is either at most `low` or longer than
`high`. -/
def strsOutside (v : Json) (low high : Int) : Bool :=
  match v with
  | Json.str s => (s.length : Int) ≤ low || high < (s.length : Int)
  | Json.arr xs => strsOutsideElems xs low high
  | Json.obj kvs => strsOutsideFields kvs low high
  | _ => true

/-- `strsOutside` on every element. -/
def strsOutsideElems (xs : List Json) (low high : Int) : Bool :=
  match xs with
  | [] => true
  | x :: rest => strsOutside x low high && strsOutsideElems rest low high

/-- `strsOutside` on every field value. -/
def strsOutsideFields (kvs : List (String × Json)) (low high : Int) : Bool :=
  match kvs with
  | [] => true
  | kv :: rest => strsOutside kv.2 low high && strsOutsideFields rest low high

end

/-- One page dict whose envelope exceeds the budget 108 while holding a
single run with one 50-character string value: the concrete instance on
which the binary search of `enforcePageCharBudget` misses the unique
fitting truncation length. -/
def overBudgetPage : List (String × Json) :=
  [("runs", Json.arr [Json.obj [("a", Json.str (String.mk (List.replicate 50 (Char.ofNat 120))))]]),
   ("page_number", Json.num 1),
   ("total_pages", Json.num 1),
   ("max_chars_per_page", Json.num 108),
   ("preview_chars", Json.num 0)]

/-- The three one-field items of the spec scenario around a budget of 12. -/
def threeSmallItems : List Json :=
  [Json.obj [("id", Json.str "a")],
   Json.obj [("id", Json.str "b")],
   Json.obj [("id", Json.str "c")]]

/-! ### Dictionary lemmas -/

theorem dictGet_dictSet_self (d : List (String × Json)) (key : String) (v : Json) :
    dictGet (dictSet d key v) key = some v := by
  induction d with
  | nil => simp [dictSet, dictGet]
  | cons kv rest ih =>
    obtain ⟨k1, v1⟩ := kv
    by_cases h : k1 = key <;> simp [dictSet, dictGet, h, ih]

theorem dictGet_dictSet_ne (d : List (String × Json)) (key key2 : String) (v : Json)
    (h : key2 ≠ key) : dictGet (dictSet d key v) key2 = dictGet d key2 := by
  have hne : key ≠ key2 := fun hh => h hh.symm
  induction d with
  | nil => simp [dictSet, dictGet, hne]
  | cons kv rest ih =>
    obtain ⟨k1, v1⟩ := kv
    by_cases h1 : k1 = key
    · subst h1
      simp [dictSet, dictGet, hne]
    · by_cases h2 : k1 = key2 <;> simp [dictSet, dictGet, h1, h2, ih, h]

theorem dictGet_append_left (a b : List (String × Json)) (key : String) (v : Json)
    (h : dictGet a key = some v) : dictGet (a ++ b) key = some v := by
  induction a with
  | nil => simp [dictGet] at h
  | cons kv rest ih =>
    obtain ⟨k1, v1⟩ := kv
    by_cases h1 : k1 = key <;> simp_all [dictGet]

theorem dictGet_append_right (a b : List (String × Json)) (key : String)
    (h : dictGet a key = none) : dictGet (a ++ b) key = dictGet b key := by
  induction a with
  | nil => simp
  | cons kv rest ih =>
    obtain ⟨k1, v1⟩ := kv
    by_cases h1 : k1 = key <;> simp_all [dictGet]

theorem dictGet_filter_out (d : List (String × Json)) (key : String) :
    dictGet (d.filter (fun kv => !(kv.1 == key))) key = none := by
  induction d with
  | nil => simp [dictGet]
  | cons kv rest ih =>
    obtain ⟨k1, v1⟩ := kv
    by_cases h1 : k1 = key
    · subst h1
      simp [List.filter_cons, ih]
    · simp [List.filter_cons, h1, dictGet, ih]

/-! ### Structure of the binary search and of budget enforcement -/

theorem searchGo_sound (pd : List (String × Json)) (items : List Json) (B : Nat)
    (k : String) :
    ∀ (fuel : Nat) (low high : Int) (best : List (String × Json)),
    0 ≤ low → high ≤ 100000 →
    (best = pd ∨ ∃ t : Int, 0 ≤ t ∧ t ≤ 100000 ∧
      best = dictSet pd k (Json.arr (truncateElems items t)) ∧ pageOutputSize best ≤ B) →
    (searchGo pd items B k fuel low high best = pd ∨
      ∃ t : Int, 0 ≤ t ∧ t ≤ 100000 ∧
        searchGo pd items B k fuel low high best =
          dictSet pd k (Json.arr (truncateElems items t)) ∧
        pageOutputSize (searchGo pd items B k fuel low high best) ≤ B) := by
  intro fuel
  induction fuel with
  | zero => intro low high best _ _ hbest; simpa [searchGo] using hbest
  | succ fuel ih =>
    intro low high best hlow hhigh hbest
    by_cases hlh : low ≤ high
    · have hmid1 : 0 ≤ (low + high) / 2 := by omega
      have hmid2 : (low + high) / 2 ≤ high := by omega
      by_cases hfit : pageOutputSize
          (dictSet pd k (Json.arr (truncateElems items ((low + high) / 2)))) ≤ B
      · have step : searchGo pd items B k (fuel + 1) low high best =
            searchGo pd items B k fuel ((low + high) / 2 + 1) high
              (dictSet pd k (Json.arr (truncateElems items ((low + high) / 2)))) := by
          simp [searchGo, hlh, hfit]
        rw [step]
        exact ih ((low + high) / 2 + 1) high _ (by omega) hhigh
          (Or.inr ⟨(low + high) / 2, hmid1, le_trans hmid2 hhigh, rfl, hfit⟩)
      · have step : searchGo pd items B k (fuel + 1) low high best =
            searchGo pd items B k fuel low ((low + high) / 2 - 1) best := by
          simp [searchGo, hlh, hfit]
        rw [step]
        exact ih low ((low + high) / 2 - 1) best hlow (by omega) hbest
    · simpa [searchGo, hlh] using hbest

theorem enforce_cases (d : List (String × Json)) (B : Nat) (k : String) :
    (enforcePageCharBudget d B k = d ∧
      (pageOutputSize d ≤ B ∨
        ∀ items, dictGet d k = some (Json.arr items) → items = [])) ∨
    (∃ t : Int, ∃ items, 0 ≤ t ∧ t ≤ 100000 ∧
      dictGet d k = some (Json.arr items) ∧
      enforcePageCharBudget d B k = dictSet d k (Json.arr (truncateElems items t)) ∧
      pageOutputSize (enforcePageCharBudget d B k) ≤ B) ∨
    (∃ best, enforcePageCharBudget d B k = degradedFallbackPage d best B k) := by
  by_cases hfit : pageOutputSize d ≤ B
  · exact Or.inl ⟨by simp [enforcePageCharBudget, hfit], Or.inl hfit⟩
  · cases hget : dictGet d k with
    | none =>
      refine Or.inl ⟨by simp [enforcePageCharBudget, hfit, hget], Or.inr ?_⟩
      intro items hitems
      exact Option.noConfusion hitems
    | some v =>
      cases v with
      | arr items =>
        cases items with
        | nil =>
          refine Or.inl ⟨by simp [enforcePageCharBudget, hfit, hget, List.isEmpty],
            Or.inr ?_⟩
          intro items2 hitems
          simpa using hitems.symm
        | cons x rest =>
          have hsearch := searchGo_sound d (x :: rest) B k 100002 0 100000 d
            (by omega) (by omega) (Or.inl rfl)
          set best := searchGo d (x :: rest) B k 100002 0 100000 d with hbestdef
          have hrun : enforcePageCharBudget d B k =
              (if B < pageOutputSize best then degradedFallbackPage d best B k
               else best) := by
            simp [enforcePageCharBudget, hfit, hget, List.isEmpty, hbestdef]
          by_cases hover : B < pageOutputSize best
          · rw [hrun, if_pos hover]
            exact Or.inr (Or.inr ⟨best, rfl⟩)
          · rw [hrun, if_neg hover]
            rcases hsearch with hpd | ⟨t, ht0, ht1, heq, hle⟩
            · rw [hpd] at hover
              omega
            · exact Or.inr (Or.inl ⟨t, x :: rest, ht0, ht1, rfl, heq, hle⟩)
      | null =>
        refine Or.inl ⟨by simp [enforcePageCharBudget, hfit, hget], Or.inr ?_⟩
        intro items hitems
        simp at hitems
      | bool b =>
        refine Or.inl ⟨by simp [enforcePageCharBudget, hfit, hget], Or.inr ?_⟩
        intro items hitems
        simp at hitems
      | num n =>
        refine Or.inl ⟨by simp [enforcePageCharBudget, hfit, hget], Or.inr ?_⟩
        intro items hitems
        simp at hitems
      | str s =>
        refine Or.inl ⟨by simp [enforcePageCharBudget, hfit, hget], Or.inr ?_⟩
        intro items hitems
        simp at hitems
      | obj kvs =>
        refine Or.inl ⟨by simp [enforcePageCharBudget, hfit, hget], Or.inr ?_⟩
        intro items hitems
        simp at hitems

theorem enforce_empty_items (d : List (String × Json)) (B : Nat) (k : String)
    (h : dictGet d k = some (Json.arr [])) : enforcePageCharBudget d B k = d := by
  by_cases hfit : pageOutputSize d ≤ B
  · simp [enforcePageCharBudget, hfit]
  · simp [enforcePageCharBudget, hfit, h, List.isEmpty]

theorem searchGo_fuel_irrelevant (pd : List (String × Json)) (items : List Json)
    (B : Nat) (k : String) :
    ∀ (w : Nat) (low high : Int) (best : List (String × Json)) (fuel1 fuel2 : Nat),
    (high + 1 - low).toNat ≤ w → w < fuel1 → w < fuel2 →
    searchGo pd items B k fuel1 low high best =
      searchGo pd items B k fuel2 low high best := by
  intro w
  induction w with
  | zero =>
    intro low high best fuel1 fuel2 hw h1 h2
    obtain ⟨f1, rfl⟩ : ∃ f1, fuel1 = f1 + 1 := ⟨fuel1 - 1, by omega⟩
    obtain ⟨f2, rfl⟩ : ∃ f2, fuel2 = f2 + 1 := ⟨fuel2 - 1, by omega⟩
    have hlh : ¬ low ≤ high := by omega
    simp [searchGo, hlh]
  | succ w ih =>
    intro low high best fuel1 fuel2 hw h1 h2
    obtain ⟨f1, rfl⟩ : ∃ f1, fuel1 = f1 + 1 := ⟨fuel1 - 1, by omega⟩
    obtain ⟨f2, rfl⟩ : ∃ f2, fuel2 = f2 + 1 := ⟨fuel2 - 1, by omega⟩
    by_cases hlh : low ≤ high
    · by_cases hfit : pageOutputSize
          (dictSet pd k (Json.arr (truncateElems items ((low + high) / 2)))) ≤ B
      · simp only [searchGo, hlh, if_true, hfit]
        exact ih ((low + high) / 2 + 1) high _ f1 f2 (by omega) (by omega) (by omega)
      · simp only [searchGo, hlh, if_true, if_neg hfit]
        exact ih low ((low + high) / 2 - 1) best f1 f2 (by omega) (by omega) (by omega)
    · simp [searchGo, hlh]

/-! ### Fields of the degraded fallback page -/

theorem fallback_truncated_field (d best : List (String × Json)) (B : Nat)
    (k : String) :
    dictGet (degradedFallbackPage d best B k) "_truncated" = some (Json.bool true) := by
  simp [degradedFallbackPage, dictGet_dictSet_self, dictGet_dictSet_ne]

theorem fallback_preview_field (d best : List (String × Json)) (B : Nat)
    (k : String) :
    dictGet (degradedFallbackPage d best B k) "_truncated_preview" =
      some (Json.str (strTake (serialize (Json.obj best)) (previewMaxFor B) ++
        truncatedSuffix)) := by
  simp [degradedFallbackPage, dictGet_dictSet_self]

theorem fallback_mcp_field (d best : List (String × Json)) (B : Nat) (k : String) :
    dictGet (degradedFallbackPage d best B k) "max_chars_per_page" =
      some (Json.num (B : Int)) := by
  simp [degradedFallbackPage, dictGet_dictSet_self, dictGet_dictSet_ne]

theorem fallback_items_field (d best : List (String × Json)) (B : Nat) (k : String)
    (h1 : k ≠ "page_number") (h2 : k ≠ "total_pages")
    (h3 : k ≠ "max_chars_per_page") (h4 : k ≠ "preview_chars")
    (h5 : k ≠ "_truncated") (h6 : k ≠ "_truncated_message")
    (h7 : k ≠ "_truncated_preview") :
    dictGet (degradedFallbackPage d best B k) k = some (Json.arr []) := by
  unfold degradedFallbackPage
  rw [dictGet_dictSet_ne _ _ _ _ h7, dictGet_dictSet_ne _ _ _ _ h6,
    dictGet_dictSet_ne _ _ _ _ h5, dictGet_dictSet_ne _ _ _ _ h4,
    dictGet_dictSet_ne _ _ _ _ h3, dictGet_dictSet_ne _ _ _ _ h2,
    dictGet_dictSet_ne _ _ _ _ h1,
    dictGet_append_right _ _ _ (dictGet_filter_out d k)]
  simp [dictGet]

theorem strTake_suffix_length (s : String) (n : Nat) :
    (strTake s n ++ truncatedSuffix).length ≤ n + 50 := by
  have h1 : (strTake s n).length ≤ n := by
    have : (strTake s n).length = (s.data.take n).length := rfl
    rw [this, List.length_take]
    omega
  have h2 : truncatedSuffix.length = 50 := by decide
  have h3 : (strTake s n ++ truncatedSuffix).length =
      (strTake s n).length + truncatedSuffix.length := String.length_append _ _
  omega

theorem enforce_mcp_field (d : List (String × Json)) (B : Nat) (k : String)
    (hk : k ≠ "max_chars_per_page")
    (hd : dictGet d "max_chars_per_page" = some (Json.num (B : Int))) :
    dictGet (enforcePageCharBudget d B k) "max_chars_per_page" =
      some (Json.num (B : Int)) := by
  rcases enforce_cases d B k with ⟨heq, _⟩ | ⟨t, items, _, _, _, heq, _⟩ | ⟨best, heq⟩
  · rw [heq, hd]
  · rw [heq, dictGet_dictSet_ne _ _ _ _ (fun hh => hk hh.symm), hd]
  · rw [heq, fallback_mcp_field]

/-! ### Greedy packing partitions the input -/

theorem buildPagesGo_join (B : Nat) :
    ∀ (rest : List Json) (pages : List (List Json)) (cur : List Json) (c : Nat),
    (buildPagesGo B rest pages cur c).flatten = pages.flatten ++ cur ++ rest := by
  intro rest
  induction rest with
  | nil =>
    intro pages cur c
    by_cases h : cur.isEmpty
    · have : cur = [] := List.isEmpty_iff.mp h
      simp [buildPagesGo, h, this]
    · simp [buildPagesGo, h]
  | cons run rs ih =>
    intro pages cur c
    by_cases h : B < c + runCharCount run ∧ cur.isEmpty = false
    · simp only [buildPagesGo, if_pos h, ih]
      simp
    · simp only [buildPagesGo, if_neg h, ih]
      simp

/-- C6: concatenating the pages produced by `buildPagesByCharBudget` in page
order yields back exactly the input item sequence, for every item list and
every budget — the page set is an order-preserving partition of the input,
independent of which page is later selected or degraded. -/
theorem buildPages_join_eq (xs : List Json) (B : Nat) :
    (buildPagesByCharBudget xs B).flatten = xs := by
  by_cases h : xs.isEmpty
  · have : xs = [] := List.isEmpty_iff.mp h
    simp [buildPagesByCharBudget, h, this]
  · simp [buildPagesByCharBudget, h, buildPagesGo_join]

/-! ### The selected page of the paginate entry points -/

theorem paginateRuns_out_of_range (xs : List Json) (p : Int) (B : Nat) (pc : Int)
    (h : p < 1 ∨ ((buildPagesByCharBudget
      (if 0 < pc then truncateElems xs pc else xs) B).length : Int) < p) :
    paginateRuns xs p B pc =
      [("runs", Json.arr []),
       ("page_number", Json.num p),
       ("total_pages", Json.num ((buildPagesByCharBudget
         (if 0 < pc then truncateElems xs pc else xs) B).length : Int)),
       ("max_chars_per_page", Json.num (B : Int)),
       ("preview_chars", Json.num pc)] := by
  simp only [paginateRuns]
  rw [if_pos h]
  exact enforce_empty_items _ _ _ (by simp [dictGet])

theorem paginateMessages_out_of_range (xs : List Json) (p : Int) (B : Nat) (pc : Int)
    (h : p < 1 ∨ ((buildPagesByCharBudget
      (if 0 < pc then truncateElems xs pc else xs) B).length : Int) < p) :
    paginateMessages xs p B pc =
      [("result", Json.arr []),
       ("page_number", Json.num p),
       ("total_pages", Json.num ((buildPagesByCharBudget
         (if 0 < pc then truncateElems xs pc else xs) B).length : Int)),
       ("max_chars_per_page", Json.num (B : Int)),
       ("preview_chars", Json.num pc)] := by
  simp only [paginateMessages]
  rw [if_pos h]
  exact enforce_empty_items _ _ _ (by simp [dictGet])

theorem empty_input_out_of_range (xs : List Json) (p : Int) (B : Nat) (pc : Int)
    (hxs : xs = []) :
    p < 1 ∨ ((buildPagesByCharBudget
      (if 0 < pc then truncateElems xs pc else xs) B).length : Int) < p := by
  subst hxs
  have h1 : (if 0 < pc then truncateElems [] pc else []) = ([] : List Json) := by
    simp [truncateElems]
  rw [h1]
  have h2 : buildPagesByCharBudget [] B = [] := rfl
  rw [h2]
  simp only [List.length_nil, Nat.cast_zero]
  omega

/-- C7: for an empty item list, `total_pages` is 0 and the selected page's
items are empty for every page number; for an out-of-range page number the
returned page's items are empty while `total_pages` still equals the page
count of the full partition and `page_number` echoes the request — for
both `paginateRuns` and `paginateMessages`. -/
theorem paginate_empty_and_out_of_range (xs : List Json) (p : Int) (B : Nat)
    (pc : Int) :
    (xs = [] →
      dictGet (paginateRuns xs p B pc) "total_pages" = some (Json.num 0) ∧
      dictGet (paginateRuns xs p B pc) "runs" = some (Json.arr []) ∧
      dictGet (paginateMessages xs p B pc) "total_pages" = some (Json.num 0) ∧
      dictGet (paginateMessages xs p B pc) "result" = some (Json.arr [])) ∧
    ((p < 1 ∨ ((buildPagesByCharBudget
        (if 0 < pc then truncateElems xs pc else xs) B).length : Int) < p) →
      dictGet (paginateRuns xs p B pc) "runs" = some (Json.arr []) ∧
      dictGet (paginateRuns xs p B pc) "total_pages" =
        some (Json.num ((buildPagesByCharBudget
          (if 0 < pc then truncateElems xs pc else xs) B).length : Int)) ∧
      dictGet (paginateRuns xs p B pc) "page_number" = some (Json.num p) ∧
      dictGet (paginateMessages xs p B pc) "result" = some (Json.arr []) ∧
      dictGet (paginateMessages xs p B pc) "total_pages" =
        some (Json.num ((buildPagesByCharBudget
          (if 0 < pc then truncateElems xs pc else xs) B).length : Int)) ∧
      dictGet (paginateMessages xs p B pc) "page_number" = some (Json.num p)) := by
  constructor
  · intro hxs
    have h := empty_input_out_of_range xs p B pc hxs
    rw [paginateRuns_out_of_range xs p B pc h, paginateMessages_out_of_range xs p B pc h]
    subst hxs
    have h1 : (if 0 < pc then truncateElems [] pc else []) = ([] : List Json) := by
      simp [truncateElems]
    rw [h1]
    have h2 : buildPagesByCharBudget [] B = [] := rfl
    rw [h2]
    refine ⟨?_, ?_, ?_, ?_⟩ <;> simp [dictGet]
  · intro h
    rw [paginateRuns_out_of_range xs p B pc h, paginateMessages_out_of_range xs p B pc h]
    refine ⟨?_, ?_, ?_, ?_, ?_, ?_⟩ <;> simp [dictGet]

/-- C7 witness: the theorem applied at the empty item list with page number
2, where both hypotheses are discharged. -/
theorem paginate_empty_and_out_of_range_witness :
    dictGet (paginateRuns [] 2 7 0) "total_pages" = some (Json.num 0) ∧
    dictGet (paginateRuns [] 2 7 0) "runs" = some (Json.arr []) ∧
    dictGet (paginateMessages [] 2 7 0) "result" = some (Json.arr []) ∧
    dictGet (paginateRuns [] 2 7 0) "page_number" = some (Json.num 2) := by
  have h := paginate_empty_and_out_of_range [] 2 7 0
  have ha := h.1 rfl
  have hb := h.2 (empty_input_out_of_range [] 2 7 0 rfl)
  exact ⟨ha.1, ha.2.1, ha.2.2.2, hb.2.2.1⟩

/-- C10: when the selected page's item list is empty (empty input or an
out-of-range page number) and the serialized envelope nevertheless exceeds
the budget, `paginateRuns` and `paginateMessages` return the envelope
completely unchanged: over budget, with no `_truncated`, no
`_truncated_message` and no `_truncated_preview` field, because budget
enforcement returns early for pages with no items. -/
theorem empty_page_skips_enforcement (xs : List Json) (p : Int) (B : Nat) (pc : Int)
    (hsel : xs = [] ∨ p < 1 ∨ ((buildPagesByCharBudget
      (if 0 < pc then truncateElems xs pc else xs) B).length : Int) < p) :
    (B < pageOutputSize
        [("runs", Json.arr []),
         ("page_number", Json.num p),
         ("total_pages", Json.num ((buildPagesByCharBudget
           (if 0 < pc then truncateElems xs pc else xs) B).length : Int)),
         ("max_chars_per_page", Json.num (B : Int)),
         ("preview_chars", Json.num pc)] →
      paginateRuns xs p B pc =
        [("runs", Json.arr []),
         ("page_number", Json.num p),
         ("total_pages", Json.num ((buildPagesByCharBudget
           (if 0 < pc then truncateElems xs pc else xs) B).length : Int)),
         ("max_chars_per_page", Json.num (B : Int)),
         ("preview_chars", Json.num pc)] ∧
      dictGet (paginateRuns xs p B pc) "_truncated" = none ∧
      dictGet (paginateRuns xs p B pc) "_truncated_message" = none ∧
      dictGet (paginateRuns xs p B pc) "_truncated_preview" = none) ∧
    (B < pageOutputSize
        [("result", Json.arr []),
         ("page_number", Json.num p),
         ("total_pages", Json.num ((buildPagesByCharBudget
           (if 0 < pc then truncateElems xs pc else xs) B).length : Int)),
         ("max_chars_per_page", Json.num (B : Int)),
         ("preview_chars", Json.num pc)] →
      paginateMessages xs p B pc =
        [("result", Json.arr []),
         ("page_number", Json.num p),
         ("total_pages", Json.num ((buildPagesByCharBudget
           (if 0 < pc then truncateElems xs pc else xs) B).length : Int)),
         ("max_chars_per_page", Json.num (B : Int)),
         ("preview_chars", Json.num pc)] ∧
      dictGet (paginateMessages xs p B pc) "_truncated" = none ∧
      dictGet (paginateMessages xs p B pc) "_truncated_message" = none ∧
      dictGet (paginateMessages xs p B pc) "_truncated_preview" = none) := by
  have h : p < 1 ∨ ((buildPagesByCharBudget
      (if 0 < pc then truncateElems xs pc else xs) B).length : Int) < p := by
    rcases hsel with hxs | hp
    · exact empty_input_out_of_range xs p B pc hxs
    · exact hp
  constructor
  · intro _
    have heq := paginateRuns_out_of_range xs p B pc h
    rw [heq]
    refine ⟨rfl, ?_, ?_, ?_⟩ <;> simp [dictGet]
  · intro _
    have heq := paginateMessages_out_of_range xs p B pc h
    rw [heq]
    refine ⟨rfl, ?_, ?_, ?_⟩ <;> simp [dictGet]

/-- C10 witness: the theorem applied at the empty item list, page 1 and
budget 1, whose empty envelope of about 90 characters exceeds the budget. -/
theorem empty_page_skips_enforcement_witness :
    paginateRuns [] 1 1 0 =
      [("runs", Json.arr []),
       ("page_number", Json.num 1),
       ("total_pages", Json.num 0),
       ("max_chars_per_page", Json.num 1),
       ("preview_chars", Json.num 0)] ∧
    dictGet (paginateRuns [] 1 1 0) "_truncated" = none := by
  have h := (empty_page_skips_enforcement [] 1 1 0 (Or.inl rfl)).1 (by decide)
  exact ⟨h.1, h.2.1⟩

theorem paginateRuns_mcp (xs : List Json) (p : Int) (B : Nat) (pc : Int) :
    dictGet (paginateRuns xs p B pc) "max_chars_per_page" =
      some (Json.num (B : Int)) := by
  simp only [paginateRuns]
  exact enforce_mcp_field _ B "runs" (by decide) (by simp [dictGet])

theorem paginateMessages_mcp (xs : List Json) (p : Int) (B : Nat) (pc : Int) :
    dictGet (paginateMessages xs p B pc) "max_chars_per_page" =
      some (Json.num (B : Int)) := by
  simp only [paginateMessages]
  exact enforce_mcp_field _ B "result" (by decide) (by simp [dictGet])

/-- C1 (amended): the `min(requested, 30000)` clamp is applied by the tool
layer (`fetchRunsTool`, `getThreadHistoryTool`) before the core is called;
the core pagination entry points use exactly the budget they receive for
packing and enforcement and echo it in `max_chars_per_page`, so a request
of 1,000,000 is used as 30000 only when routed through the tool layer. -/
theorem budget_clamp_tool_layer (r : Nat) (xs : List Json) (p : Int) (pc : Int) :
    fetchRunsEffectiveBudget (some r) = min r 30000 ∧
    getThreadHistoryEffectiveBudget r = min r 30000 ∧
    dictGet (paginateRuns xs p (fetchRunsEffectiveBudget (some r)) pc)
      "max_chars_per_page" = some (Json.num ((min r 30000 : Nat) : Int)) ∧
    dictGet (paginateMessages xs p (getThreadHistoryEffectiveBudget r) pc)
      "max_chars_per_page" = some (Json.num ((min r 30000 : Nat) : Int)) := by
  refine ⟨rfl, rfl, ?_, ?_⟩
  · exact paginateRuns_mcp xs p (fetchRunsEffectiveBudget (some r)) pc
  · exact paginateMessages_mcp xs p (getThreadHistoryEffectiveBudget r) pc

/-- C1 counterexample: `paginateRuns` called directly with a requested
budget of 1,000,000 packs, enforces and reports with 1,000,000 — the core
itself applies no 30000 ceiling. -/
theorem budget_clamp_not_in_core :
    dictGet (paginateRuns [] 1 1000000 0) "max_chars_per_page" =
      some (Json.num 1000000) ∧
    dictGet (paginateRuns [] 1 1000000 0) "max_chars_per_page" ≠
      some (Json.num 30000) := by
  have h1 : dictGet (paginateRuns [] 1 1000000 0) "max_chars_per_page" =
      some (Json.num 1000000) := rfl
  refine ⟨h1, ?_⟩
  rw [h1]
  simp

theorem enforce_budget_respect (d : List (String × Json)) (B : Nat) (k : String)
    (items : List Json) (hd : dictGet d k = some (Json.arr items)) :
    pageOutputSize (enforcePageCharBudget d B k) ≤ B ∨
    (dictGet (enforcePageCharBudget d B k) "_truncated" = some (Json.bool true) ∧
      ∃ s : String, dictGet (enforcePageCharBudget d B k) "_truncated_preview" =
        some (Json.str s) ∧ s.length ≤ previewMaxFor B + 50) ∨
    dictGet (enforcePageCharBudget d B k) k = some (Json.arr []) := by
  rcases enforce_cases d B k with ⟨heq, hcond⟩ | ⟨t, items2, _, _, _, heq, hle⟩ |
    ⟨best, heq⟩
  · rcases hcond with hsize | hempty
    · rw [heq]
      exact Or.inl hsize
    · have : items = [] := hempty items hd
      subst this
      rw [heq]
      exact Or.inr (Or.inr hd)
  · exact Or.inl hle
  · rw [heq]
    refine Or.inr (Or.inl ⟨fallback_truncated_field d best B k, ?_⟩)
    exact ⟨_, fallback_preview_field d best B k, strTake_suffix_length _ _⟩

/-- C2 (amended): for every item list, page number, preview length and
budget, the page returned by `paginateRuns` (and `paginateMessages`) either
has serialized size at most `maxCharsPerPage`, or carries
`_truncated: true` together with a `_truncated_preview` string whose length
is at most `max(100, (budget - suffix - 1000)/2)` plus the 50-character
suffix, or is a page whose item list is empty — in which case budget
enforcement is skipped and the envelope may exceed the budget without any
diagnostic marker. -/
theorem paginate_budget_respect (xs : List Json) (p : Int) (B : Nat) (pc : Int) :
    (pageOutputSize (paginateRuns xs p B pc) ≤ B ∨
      (dictGet (paginateRuns xs p B pc) "_truncated" = some (Json.bool true) ∧
        ∃ s : String, dictGet (paginateRuns xs p B pc) "_truncated_preview" =
          some (Json.str s) ∧ s.length ≤ previewMaxFor B + 50) ∨
      dictGet (paginateRuns xs p B pc) "runs" = some (Json.arr [])) ∧
    (pageOutputSize (paginateMessages xs p B pc) ≤ B ∨
      (dictGet (paginateMessages xs p B pc) "_truncated" = some (Json.bool true) ∧
        ∃ s : String, dictGet (paginateMessages xs p B pc) "_truncated_preview" =
          some (Json.str s) ∧ s.length ≤ previewMaxFor B + 50) ∨
      dictGet (paginateMessages xs p B pc) "result" = some (Json.arr [])) := by
  constructor
  · simp only [paginateRuns]
    exact enforce_budget_respect _ B "runs" _ rfl
  · simp only [paginateMessages]
    exact enforce_budget_respect _ B "result" _ rfl

/-- C2 counterexample: with the empty item list, page 1, preview 0 and the
positive budget 1, the returned page's serialized size exceeds the budget
yet the page carries no `_truncated` marker at all. -/
theorem paginate_budget_respect_claim_false :
    1 ≤ (1 : Nat) ∧ (0 : Int) ≤ 0 ∧
    1 < pageOutputSize (paginateRuns [] 1 1 0) ∧
    dictGet (paginateRuns [] 1 1 0) "_truncated" = none := by
  refine ⟨by decide, by decide, by decide, rfl⟩

/-- C3 (amended): when the selected page's envelope exceeds the budget and
the page holds at least one item, `enforcePageCharBudget` returns either
the page rebuilt with `truncateStrings` at some `t` in `[0, 100000]` whose
envelope fits the budget, or the degraded empty-items fallback marked
`_truncated`; because serialized size is not monotone in `t` (`t = 0` is a
no-op and size drops when `t` crosses a string's length), the search does
not always converge to the largest satisfying `t`, and the fallback can be
returned even though some `t` in the domain fits. -/
theorem enforce_over_budget_result (d : List (String × Json)) (B : Nat)
    (k : String) (items : List Json) (hover : B < pageOutputSize d)
    (hitems : dictGet d k = some (Json.arr items)) (hne : items ≠ [])
    (hk : k = "runs" ∨ k = "result") :
    (∃ t : Int, 0 ≤ t ∧ t ≤ 100000 ∧
      enforcePageCharBudget d B k = dictSet d k (Json.arr (truncateElems items t)) ∧
      pageOutputSize (enforcePageCharBudget d B k) ≤ B) ∨
    (dictGet (enforcePageCharBudget d B k) "_truncated" = some (Json.bool true) ∧
      dictGet (enforcePageCharBudget d B k) k = some (Json.arr [])) := by
  rcases enforce_cases d B k with ⟨heq, hcond⟩ | ⟨t, items2, ht0, ht1, hget2, heq, hle⟩ |
    ⟨best, heq⟩
  · exfalso
    rcases hcond with hsize | hempty
    · omega
    · exact hne (hempty items hitems)
  · left
    have : items2 = items := by
      rw [hitems] at hget2
      simpa using hget2.symm
    subst this
    exact ⟨t, ht0, ht1, heq, hle⟩
  · right
    rw [heq]
    rcases hk with rfl | rfl
    · exact ⟨fallback_truncated_field d best B _,
        fallback_items_field d best B _ (by decide) (by decide) (by decide)
          (by decide) (by decide) (by decide) (by decide)⟩
    · exact ⟨fallback_truncated_field d best B _,
        fallback_items_field d best B _ (by decide) (by decide) (by decide)
          (by decide) (by decide) (by decide) (by decide)⟩

set_option maxRecDepth 8000 in
/-- C3 witness: the amended theorem applied to the concrete over-budget
page `overBudgetPage` with budget 108. -/
theorem enforce_over_budget_result_witness :
    (108 < pageOutputSize overBudgetPage) ∧
    ((∃ t : Int, 0 ≤ t ∧ t ≤ 100000 ∧
      enforcePageCharBudget overBudgetPage 108 "runs" =
        dictSet overBudgetPage "runs" (Json.arr (truncateElems
          [Json.obj [("a", Json.str (String.mk (List.replicate 50 (Char.ofNat 120))))]] t)) ∧
      pageOutputSize (enforcePageCharBudget overBudgetPage 108 "runs") ≤ 108) ∨
    (dictGet (enforcePageCharBudget overBudgetPage 108 "runs") "_truncated" =
        some (Json.bool true) ∧
      dictGet (enforcePageCharBudget overBudgetPage 108 "runs") "runs" =
        some (Json.arr []))) :=
  ⟨by decide, enforce_over_budget_result overBudgetPage 108 "runs" _ (by decide) rfl
    (by simp) (Or.inl rfl)⟩

set_option maxRecDepth 8000 in
/-- C3 counterexample: on `overBudgetPage` with budget 108 the envelope is
over budget, truncation at `t = 1` makes it fit, yet the binary search —
whose probe sequence 50000, 24999, ..., 5, 2, 0 never tests `t = 1` —
finds nothing and the degraded empty-items fallback is returned, so the
fallback is not returned exactly when no `t` in `[0, 100000]` fits. -/
theorem enforce_fallback_despite_fitting_t :
    108 < pageOutputSize overBudgetPage ∧
    pageOutputSize (dictSet overBudgetPage "runs" (Json.arr (truncateElems
      [Json.obj [("a", Json.str (String.mk (List.replicate 50 (Char.ofNat 120))))]]
      1))) ≤ 108 ∧
    dictGet (enforcePageCharBudget overBudgetPage 108 "runs") "_truncated" =
      some (Json.bool true) ∧
    dictGet (enforcePageCharBudget overBudgetPage 108 "runs") "runs" =
      some (Json.arr []) := by
  refine ⟨by decide, by decide, rfl, rfl⟩

/-- C8 (amended): on the three ten-character items with budget 12 and
preview 0, packing produces three one-item pages, and `paginateRuns` at
page 2 selects `{id:"b"}` but then degrades: the envelope metadata alone
exceeds 12 characters, so the returned page reports `page_number` 2,
`total_pages` 3, `max_chars_per_page` 12 with empty items and
`_truncated: true` instead of carrying `{id:"b"}`. -/
theorem scenario_three_items_budget_12 :
    buildPagesByCharBudget threeSmallItems 12 =
      [[Json.obj [("id", Json.str "a")]],
       [Json.obj [("id", Json.str "b")]],
       [Json.obj [("id", Json.str "c")]]] ∧
    dictGet (paginateRuns threeSmallItems 2 12 0) "page_number" =
      some (Json.num 2) ∧
    dictGet (paginateRuns threeSmallItems 2 12 0) "total_pages" =
      some (Json.num 3) ∧
    dictGet (paginateRuns threeSmallItems 2 12 0) "max_chars_per_page" =
      some (Json.num 12) ∧
    dictGet (paginateRuns threeSmallItems 2 12 0) "runs" =
      some (Json.arr []) ∧
    dictGet (paginateRuns threeSmallItems 2 12 0) "_truncated" =
      some (Json.bool true) := by
  exact ⟨rfl, rfl, rfl, rfl, rfl, rfl⟩

/-- C8 counterexample: `paginate(items, 2, 12)` does not return a page
whose items equal `[{id:"b"}]` — the returned items are empty. -/
theorem scenario_three_items_budget_12_claim_false :
    dictGet (paginateRuns threeSmallItems 2 12 0) "runs" ≠
      some (Json.arr [Json.obj [("id", Json.str "b")]]) := by
  have h1 : dictGet (paginateRuns threeSmallItems 2 12 0) "runs" =
      some (Json.arr []) := rfl
  rw [h1]
  simp

/-! ### Decimal rendering: length and digit characters -/

theorem decDigitsCore_length (m : Nat) :
    ∀ (fuel : Nat) (acc : List Char), m < fuel →
    (decDigitsCore fuel m acc).length = Nat.log 10 m + 1 + acc.length := by
  induction m using Nat.strong_induction_on with
  | _ m ih =>
    intro fuel acc hfuel
    obtain ⟨f, rfl⟩ : ∃ f, fuel = f + 1 := ⟨fuel - 1, by omega⟩
    by_cases h10 : m < 10
    · have hlog : Nat.log 10 m = 0 := Nat.log_eq_zero_iff.mpr (Or.inl h10)
      simp [decDigitsCore, h10, hlog]
      omega
    · have hdiv : m / 10 < m := Nat.div_lt_self (by omega) (by omega)
      have hrec := ih (m / 10) hdiv f (Char.ofNat (48 + m % 10) :: acc) (by omega)
      simp only [decDigitsCore, if_neg h10]
      rw [hrec]
      have hlog : Nat.log 10 (m / 10) = Nat.log 10 m - 1 := Nat.log_div_base 10 m
      have hpos : 0 < Nat.log 10 m := Nat.log_pos (by omega) (by omega)
      simp [List.length_cons]
      omega

theorem decRepr_length (m : Nat) : (decRepr m).length = Nat.log 10 m + 1 := by
  have h := decDigitsCore_length m (m + 1) [] (by omega)
  have h2 : (decRepr m).length = (decDigitsCore (m + 1) m []).length := rfl
  rw [h2, h]
  simp

theorem log10_succ_le (k : Nat) : Nat.log 10 (k + 1) ≤ Nat.log 10 k + 1 := by
  rcases Nat.eq_zero_or_pos k with rfl | hk
  · have h0 : Nat.log 10 1 = 0 := Nat.log_eq_zero_iff.mpr (Or.inl (by omega))
    simp only [Nat.zero_add]
    omega
  · have h1 : k + 1 ≤ k * 10 := by omega
    have h2 := @Nat.log_monotone 10 (k + 1) (k * 10) h1
    have h3 : Nat.log 10 (k * 10) = Nat.log 10 k + 1 :=
      Nat.log_mul_base (by omega) (by omega)
    omega

theorem log10_add_le (m j : Nat) : Nat.log 10 (m + j) ≤ Nat.log 10 m + j := by
  induction j with
  | zero => simp
  | succ j ih =>
    have h1 := log10_succ_le (m + j)
    show Nat.log 10 (m + j + 1) ≤ Nat.log 10 m + (j + 1)
    omega

theorem decRepr_length_add_le (m j : Nat) :
    (decRepr (m + j)).length ≤ (decRepr m).length + j := by
  rw [decRepr_length, decRepr_length]
  have := log10_add_le m j
  omega

theorem decDigitsCore_digits :
    ∀ (fuel m : Nat) (acc : List Char),
    (∀ c ∈ acc, ∃ d, d < 10 ∧ c = Char.ofNat (48 + d)) →
    ∀ c ∈ decDigitsCore fuel m acc, ∃ d, d < 10 ∧ c = Char.ofNat (48 + d) := by
  intro fuel
  induction fuel with
  | zero =>
    intro m acc hacc
    simpa [decDigitsCore] using hacc
  | succ fuel ih =>
    intro m acc hacc
    by_cases h10 : m < 10
    · simp only [decDigitsCore, if_pos h10]
      intro c hc
      rcases List.mem_cons.mp hc with rfl | hmem
      · exact ⟨m % 10, by omega, rfl⟩
      · exact hacc c hmem
    · simp only [decDigitsCore, if_neg h10]
      refine ih (m / 10) _ ?_
      intro c hc
      rcases List.mem_cons.mp hc with rfl | hmem
      · exact ⟨m % 10, by omega, rfl⟩
      · exact hacc c hmem

theorem decRepr_digits (m : Nat) :
    ∀ c ∈ (decRepr m).data, ∃ d, d < 10 ∧ c = Char.ofNat (48 + d) := by
  intro c hc
  exact decDigitsCore_digits (m + 1) m [] (by simp) c hc

/-! ### Escaping: length bounds and plain characters -/

theorem escapeChar_digit : ∀ d, d < 10 →
    escapeChar (Char.ofNat (48 + d)) = String.mk [Char.ofNat (48 + d)] := by
  decide

theorem escList_plain (l : List Char) (h : ∀ c ∈ l, escapeChar c = String.mk [c]) :
    escList l = l := by
  induction l with
  | nil => rfl
  | cons c cs ih =>
    have hc := h c (by simp)
    have hrest := ih (fun c2 hc2 => h c2 (by simp [hc2]))
    simp [escList, hc, hrest]

theorem escList_append (a b : List Char) :
    escList (a ++ b) = escList a ++ escList b := by
  induction a with
  | nil => rfl
  | cons c cs ih => simp [escList, ih]

theorem one_le_escapeChar_length (c : Char) : 1 ≤ (escapeChar c).data.length := by
  unfold escapeChar
  repeat' split
  all_goals simp

theorem escList_length_ge (l : List Char) : l.length ≤ (escList l).length := by
  induction l with
  | nil => simp [escList]
  | cons c cs ih =>
    have := one_le_escapeChar_length c
    simp only [escList, List.length_append, List.length_cons]
    omega

/-! ### Serialized lengths -/

theorem length_mk (l : List Char) : (String.mk l).length = l.length := rfl

theorem serialize_str_length (s : String) :
    (serialize (Json.str s)).length = (escList s.data).length + 2 := by
  have e : serialize (Json.str s) = "\x22" ++ escapeString s ++ "\x22" := rfl
  rw [e, String.length_append, String.length_append]
  have h1 : ("\x22" : String).length = 1 := rfl
  have h2 : (escapeString s).length = (escList s.data).length := rfl
  omega

theorem serialize_arr_length (xs : List Json) :
    (serialize (Json.arr xs)).length = (serializeElems xs).length + 2 := by
  have e : serialize (Json.arr xs) = "[" ++ serializeElems xs ++ "]" := rfl
  rw [e, String.length_append, String.length_append]
  have h1 : ("[" : String).length = 1 := rfl
  have h2 : ("]" : String).length = 1 := rfl
  omega

theorem serialize_obj_length (kvs : List (String × Json)) :
    (serialize (Json.obj kvs)).length = (serializeFields kvs).length + 2 := by
  have e : serialize (Json.obj kvs) = "\x7b" ++ serializeFields kvs ++ "\x7d" := rfl
  rw [e, String.length_append, String.length_append]
  have h1 : ("\x7b" : String).length = 1 := rfl
  have h2 : ("\x7d" : String).length = 1 := rfl
  omega

theorem serializeElems_cons_cons_length (x y : Json) (rest : List Json) :
    (serializeElems (x :: y :: rest)).length =
      (serialize x).length + 1 + (serializeElems (y :: rest)).length := by
  have e : serializeElems (x :: y :: rest) =
      serialize x ++ "," ++ serializeElems (y :: rest) := rfl
  rw [e, String.length_append, String.length_append]
  have h1 : ("," : String).length = 1 := rfl
  omega

theorem serializeFields_single_length (k : String) (v : Json) :
    (serializeFields [(k, v)]).length =
      (escList k.data).length + (serialize v).length + 3 := by
  have e : serializeFields [(k, v)] = "\x22" ++ escapeString k ++ "\x22:" ++ serialize v := rfl
  rw [e, String.length_append, String.length_append, String.length_append]
  have h1 : ("\x22" : String).length = 1 := rfl
  have h2 : ("\x22:" : String).length = 2 := rfl
  have h3 : (escapeString k).length = (escList k.data).length := rfl
  omega

theorem serializeFields_cons_cons_length (k : String) (v : Json)
    (kv2 : String × Json) (rest : List (String × Json)) :
    (serializeFields ((k, v) :: kv2 :: rest)).length =
      (escList k.data).length + (serialize v).length + 4 +
        (serializeFields (kv2 :: rest)).length := by
  have e : serializeFields ((k, v) :: kv2 :: rest) =
      "\x22" ++ escapeString k ++ "\x22:" ++ serialize v ++ "," ++
        serializeFields (kv2 :: rest) := rfl
  rw [e, String.length_append, String.length_append, String.length_append,
    String.length_append, String.length_append]
  have h1 : ("\x22" : String).length = 1 := rfl
  have h2 : ("\x22:" : String).length = 2 := rfl
  have h3 : ("," : String).length = 1 := rfl
  have h4 : (escapeString k).length = (escList k.data).length := rfl
  omega

/-! ### Pointwise monotonicity of serialized sizes -/

theorem serializeElems_length_mono (f g : Json → Json) :
    ∀ xs : List Json,
    (∀ x ∈ xs, (serialize (f x)).length ≤ (serialize (g x)).length) →
    (serializeElems (xs.map f)).length ≤ (serializeElems (xs.map g)).length := by
  intro xs
  induction xs with
  | nil => intro _; simp [serializeElems]
  | cons x rest ih =>
    intro h
    have hx := h x (by simp)
    cases rest with
    | nil => simpa [serializeElems] using hx
    | cons y rest2 =>
      have hr := ih (fun z hz => h z (by simp [hz]))
      simp only [List.map_cons] at hr ⊢
      rw [serializeElems_cons_cons_length, serializeElems_cons_cons_length]
      omega

theorem serializeFields_length_mono (f g : Json → Json) :
    ∀ kvs : List (String × Json),
    (∀ kv ∈ kvs, (serialize (f kv.2)).length ≤ (serialize (g kv.2)).length) →
    (serializeFields (kvs.map (fun kv => (kv.1, f kv.2)))).length ≤
      (serializeFields (kvs.map (fun kv => (kv.1, g kv.2)))).length := by
  intro kvs
  induction kvs with
  | nil => intro _; simp [serializeFields]
  | cons kv rest ih =>
    obtain ⟨k, v⟩ := kv
    intro h
    have hx := h (k, v) (by simp)
    cases rest with
    | nil =>
      simp only [List.map_cons, List.map_nil]
      rw [serializeFields_single_length, serializeFields_single_length]
      simp only at hx
      omega
    | cons kv2 rest2 =>
      obtain ⟨k2, v2⟩ := kv2
      have hr := ih (fun z hz => h z (by simp [hz]))
      simp only [List.map_cons] at hr ⊢
      rw [serializeFields_cons_cons_length, serializeFields_cons_cons_length]
      simp only at hx hr
      omega

/-! ### The marker string and the truncated-string serialized length -/

theorem escList_decRepr (m : Nat) : escList (decRepr m).data = (decRepr m).data := by
  refine escList_plain _ ?_
  intro c hc
  obtain ⟨d, hd, rfl⟩ := decRepr_digits m c hc
  exact escapeChar_digit d hd

theorem trunc_str_serialized_length (s : String) (t : Nat) :
    (serialize (Json.str (strTake s t ++ "… (+" ++ decRepr (s.length - t) ++
      " chars)"))).length =
    (escList (s.data.take t)).length + (decRepr (s.length - t)).length + 13 := by
  rw [serialize_str_length]
  have hdata : (strTake s t ++ "… (+" ++ decRepr (s.length - t) ++ " chars)").data =
      ((s.data.take t ++ ("… (+" : String).data) ++ (decRepr (s.length - t)).data) ++
        (" chars)" : String).data := rfl
  rw [hdata, escList_append, escList_append, escList_append]
  rw [List.length_append, List.length_append, List.length_append]
  have h1 : (escList ("… (+" : String).data).length = 4 := rfl
  have h2 : (escList (" chars)" : String).data).length = 7 := rfl
  have h3 : (escList (decRepr (s.length - t)).data).length =
      (decRepr (s.length - t)).data.length := by rw [escList_decRepr]
  have h4 : (decRepr (s.length - t)).data.length = (decRepr (s.length - t)).length := rfl
  omega

theorem take_esc_mono (l : List Char) (a b : Nat) (hab : a ≤ b) (hbl : b ≤ l.length) :
    (escList (l.take a)).length + (b - a) ≤ (escList (l.take b)).length := by
  have hsplit : l.take b = (l.take b).take a ++ (l.take b).drop a :=
    (List.take_append_drop a (l.take b)).symm
  have htt : (l.take b).take a = l.take a := by
    rw [List.take_take]
    congr 1
    omega
  have hlen : ((l.take b).drop a).length = b - a := by
    rw [List.length_drop, List.length_take]
    omega
  have hge := escList_length_ge ((l.take b).drop a)
  have hfinal : (escList (l.take b)).length =
      (escList (l.take a)).length + (escList ((l.take b).drop a)).length := by
    conv_lhs => rw [hsplit]
    rw [escList_append, List.length_append, htt]
  omega

theorem str_trunc_mono (s : String) (n n' : Int) (h1 : 1 ≤ n') (h2 : n' ≤ n)
    (hlong : n < (s.length : Int)) :
    (serialize (truncateStrings (Json.str s) n')).length ≤
      (serialize (truncateStrings (Json.str s) n)).length := by
  have hn0 : ¬ (n ≤ 0) := by omega
  have hn0' : ¬ (n' ≤ 0) := by omega
  have hlen' : ¬ ((s.length : Int) ≤ n') := by omega
  have hlen : ¬ ((s.length : Int) ≤ n) := by omega
  have e1 : truncateStrings (Json.str s) n' =
      Json.str (strTake s n'.toNat ++ "… (+" ++ decRepr (s.length - n'.toNat) ++
        " chars)") := by
    simp [truncateStrings, hn0', hlen']
  have e2 : truncateStrings (Json.str s) n =
      Json.str (strTake s n.toNat ++ "… (+" ++ decRepr (s.length - n.toNat) ++
        " chars)") := by
    simp [truncateStrings, hn0, hlen]
  rw [e1, e2, trunc_str_serialized_length, trunc_str_serialized_length]
  have hdatalen : s.data.length = s.length := rfl
  have ha : n'.toNat ≤ n.toNat := by omega
  have hb : n.toNat ≤ s.data.length := by omega
  have h3 := take_esc_mono s.data n'.toNat n.toNat ha hb
  have h4 : s.length - n'.toNat = (s.length - n.toNat) + (n.toNat - n'.toNat) := by
    omega
  have h5 := decRepr_length_add_le (s.length - n.toNat) (n.toNat - n'.toNat)
  rw [h4]
  omega

/-! ### Membership forms of the string-length predicates -/

theorem strsOutsideElems_mem (xs : List Json) (a b : Int)
    (h : strsOutsideElems xs a b = true) : ∀ x ∈ xs, strsOutside x a b = true := by
  induction xs with
  | nil => simp
  | cons x rest ih =>
    rw [show strsOutsideElems (x :: rest) a b =
        (strsOutside x a b && strsOutsideElems rest a b) from rfl] at h
    rw [Bool.and_eq_true] at h
    obtain ⟨hx, hrest⟩ := h
    intro y hy
    rcases List.mem_cons.mp hy with rfl | hmem
    · exact hx
    · exact ih hrest y hmem

theorem strsOutsideFields_mem (kvs : List (String × Json)) (a b : Int)
    (h : strsOutsideFields kvs a b = true) :
    ∀ kv ∈ kvs, strsOutside kv.2 a b = true := by
  induction kvs with
  | nil => simp
  | cons kv rest ih =>
    rw [show strsOutsideFields (kv :: rest) a b =
        (strsOutside kv.2 a b && strsOutsideFields rest a b) from rfl] at h
    rw [Bool.and_eq_true] at h
    obtain ⟨hx, hrest⟩ := h
    intro y hy
    rcases List.mem_cons.mp hy with rfl | hmem
    · exact hx
    · exact ih hrest y hmem

theorem allStrLeElems_mem (xs : List Json) (a : Int)
    (h : allStrLeElems xs a = true) : ∀ x ∈ xs, allStrLe x a = true := by
  induction xs with
  | nil => simp
  | cons x rest ih =>
    rw [show allStrLeElems (x :: rest) a = (allStrLe x a && allStrLeElems rest a)
      from rfl] at h
    rw [Bool.and_eq_true] at h
    obtain ⟨hx, hrest⟩ := h
    intro y hy
    rcases List.mem_cons.mp hy with rfl | hmem
    · exact hx
    · exact ih hrest y hmem

theorem allStrLeFields_mem (kvs : List (String × Json)) (a : Int)
    (h : allStrLeFields kvs a = true) : ∀ kv ∈ kvs, allStrLe kv.2 a = true := by
  induction kvs with
  | nil => simp
  | cons kv rest ih =>
    rw [show allStrLeFields (kv :: rest) a = (allStrLe kv.2 a && allStrLeFields rest a)
      from rfl] at h
    rw [Bool.and_eq_true] at h
    obtain ⟨hx, hrest⟩ := h
    intro y hy
    rcases List.mem_cons.mp hy with rfl | hmem
    · exact hx
    · exact ih hrest y hmem

/-! ### Truncation as a map; truncation as the identity -/

theorem truncateElems_eq_map (xs : List Json) (n : Int) :
    truncateElems xs n = xs.map (fun x => truncateStrings x n) := by
  induction xs with
  | nil => rfl
  | cons x rest ih => simp [truncateElems, ih]

theorem truncateFields_eq_map (kvs : List (String × Json)) (n : Int) :
    truncateFields kvs n = kvs.map (fun kv => (kv.1, truncateStrings kv.2 n)) := by
  induction kvs with
  | nil => rfl
  | cons kv rest ih =>
    obtain ⟨k, v⟩ := kv
    simp [truncateFields, ih]

theorem truncateElems_id (xs : List Json) (n : Int)
    (h : ∀ x ∈ xs, truncateStrings x n = x) : truncateElems xs n = xs := by
  induction xs with
  | nil => rfl
  | cons x rest ih =>
    rw [show truncateElems (x :: rest) n =
      truncateStrings x n :: truncateElems rest n from rfl]
    rw [h x (by simp), ih (fun z hz => h z (by simp [hz]))]

theorem truncateFields_id (kvs : List (String × Json)) (n : Int)
    (h : ∀ kv ∈ kvs, truncateStrings kv.2 n = kv.2) : truncateFields kvs n = kvs := by
  induction kvs with
  | nil => rfl
  | cons kv rest ih =>
    obtain ⟨k, v⟩ := kv
    rw [show truncateFields ((k, v) :: rest) n =
      (k, truncateStrings v n) :: truncateFields rest n from rfl]
    rw [h (k, v) (by simp), ih (fun z hz => h z (by simp [hz]))]

theorem truncate_size_mono_aux (n n' : Int) (h1 : 1 ≤ n') (h2 : n' ≤ n) :
    ∀ v, strsOutside v n' n = true →
    (serialize (truncateStrings v n')).length ≤
      (serialize (truncateStrings v n)).length := by
  have hn0 : ¬ (n ≤ 0) := by omega
  have hn0' : ¬ (n' ≤ 0) := by omega
  intro v
  induction v using jsonInduction with
  | hnull => intro _; simp [truncateStrings]
  | hbool b => intro _; simp [truncateStrings]
  | hnum m => intro _; simp [truncateStrings]
  | hstr s =>
    intro hs
    rw [show strsOutside (Json.str s) n' n =
      (decide ((s.length : Int) ≤ n') || decide (n < (s.length : Int))) from rfl] at hs
    rw [Bool.or_eq_true, decide_eq_true_eq, decide_eq_true_eq] at hs
    rcases hs with hle | hgt
    · have hle2 : (s.length : Int) ≤ n := le_trans hle h2
      simp [truncateStrings, hn0, hn0', hle, hle2]
    · exact str_trunc_mono s n n' h1 h2 hgt
  | harr xs ihmem =>
    intro hs
    rw [show strsOutside (Json.arr xs) n' n = strsOutsideElems xs n' n from rfl] at hs
    have hmem := strsOutsideElems_mem xs n' n hs
    have e1 : truncateStrings (Json.arr xs) n' = Json.arr (truncateElems xs n') := by
      simp [truncateStrings, hn0']
    have e2 : truncateStrings (Json.arr xs) n = Json.arr (truncateElems xs n) := by
      simp [truncateStrings, hn0]
    rw [e1, e2, serialize_arr_length, serialize_arr_length,
      truncateElems_eq_map, truncateElems_eq_map]
    have hm := serializeElems_length_mono (fun x => truncateStrings x n')
      (fun x => truncateStrings x n) xs (fun x hx => ihmem x hx (hmem x hx))
    omega
  | hobj kvs ihmem =>
    intro hs
    rw [show strsOutside (Json.obj kvs) n' n = strsOutsideFields kvs n' n from rfl] at hs
    have hmem := strsOutsideFields_mem kvs n' n hs
    have e1 : truncateStrings (Json.obj kvs) n' = Json.obj (truncateFields kvs n') := by
      simp [truncateStrings, hn0']
    have e2 : truncateStrings (Json.obj kvs) n = Json.obj (truncateFields kvs n) := by
      simp [truncateStrings, hn0]
    rw [e1, e2, serialize_obj_length, serialize_obj_length,
      truncateFields_eq_map, truncateFields_eq_map]
    have hm := serializeFields_length_mono (fun x => truncateStrings x n')
      (fun x => truncateStrings x n) kvs (fun kv hkv => ihmem kv hkv (hmem kv hkv))
    simp only [] at hm
    omega

/-- C5 (amended): for preview lengths `1 ≤ n' ≤ n`, decreasing the preview
length from `n` to `n'` never increases the serialized size of the
truncated result, provided no string leaf of the item has a length inside
the window `(n', n]`; for a string whose length lies in that window, the
truncation marker added at `n'` can make the result longer than the
untouched string at `n`, so the general claim fails. -/
theorem truncate_size_monotone_outside (v : Json) (n n' : Int)
    (h1 : 1 ≤ n') (h2 : n' ≤ n) (h3 : strsOutside v n' n = true) :
    (serialize (truncateStrings v n')).length ≤
      (serialize (truncateStrings v n)).length :=
  truncate_size_mono_aux n n' h1 h2 v h3

/-- C5 witness: the amended theorem applied to a 14-character string with
preview lengths 2 and 5 (the string is longer than both, so the window
condition holds). -/
theorem truncate_size_monotone_outside_witness :
    ((1 : Int) ≤ 2 ∧ (2 : Int) ≤ 5 ∧
      strsOutside (Json.str "abcdefghijklmn") 2 5 = true) ∧
    (serialize (truncateStrings (Json.str "abcdefghijklmn") 2)).length ≤
      (serialize (truncateStrings (Json.str "abcdefghijklmn") 5)).length :=
  ⟨⟨by decide, by decide, by decide⟩,
    truncate_size_monotone_outside (Json.str "abcdefghijklmn") 5 2
      (by decide) (by decide) (by decide)⟩

/-- C5 counterexample: for the ten-character string, lowering the preview
length from 10 to 9 strictly increases the serialized size (12 characters
against 23), because the marker `… (+1 chars)` is longer than the single
character it elides. -/
theorem truncate_size_not_monotone :
    (9 : Int) ≤ 10 ∧
    (serialize (truncateStrings (Json.str "abcdefghij") 10)).length <
      (serialize (truncateStrings (Json.str "abcdefghij") 9)).length :=
  ⟨by decide, by decide⟩

theorem truncateStrings_nonpos (v : Json) (n : Int) (hn : n ≤ 0) :
    truncateStrings v n = v := by
  cases v <;> simp [truncateStrings, hn]

theorem truncate_id_of_allStrLe (n : Int) :
    ∀ v, allStrLe v n = true → truncateStrings v n = v := by
  intro v
  induction v using jsonInduction with
  | hnull => intro _; simp [truncateStrings]
  | hbool b => intro _; simp [truncateStrings]
  | hnum m => intro _; simp [truncateStrings]
  | hstr s =>
    intro h
    rw [show allStrLe (Json.str s) n = decide ((s.length : Int) ≤ n) from rfl,
      decide_eq_true_eq] at h
    by_cases hn : n ≤ 0 <;> simp [truncateStrings, hn, h]
  | harr xs ihmem =>
    intro h
    rw [show allStrLe (Json.arr xs) n = allStrLeElems xs n from rfl] at h
    have hmem := allStrLeElems_mem xs n h
    by_cases hn : n ≤ 0
    · simp [truncateStrings, hn]
    · simp [truncateStrings, hn,
        truncateElems_id xs n (fun x hx => ihmem x hx (hmem x hx))]
  | hobj kvs ihmem =>
    intro h
    rw [show allStrLe (Json.obj kvs) n = allStrLeFields kvs n from rfl] at h
    have hmem := allStrLeFields_mem kvs n h
    by_cases hn : n ≤ 0
    · simp [truncateStrings, hn]
    · simp [truncateStrings, hn,
        truncateFields_id kvs n (fun kv hkv => ihmem kv hkv (hmem kv hkv))]

/-- C4 (amended): re-truncating at the same length is a no-op when `n ≤ 0`
(the truncator is the identity) or when every string leaf of `v` has length
at most `n` (truncation changes nothing to begin with); for a value
containing a string longer than `n` the first pass appends a marker, the
second pass re-truncates the now-longer string and changes the elided-count
inside the marker, so idempotence fails in general. -/
theorem truncate_idempotent_when_short (v : Json) (n : Int)
    (h : n ≤ 0 ∨ allStrLe v n = true) :
    truncateStrings (truncateStrings v n) n = truncateStrings v n := by
  rcases h with hn | hle
  · rw [truncateStrings_nonpos v n hn, truncateStrings_nonpos v n hn]
  · rw [truncate_id_of_allStrLe n v hle, truncate_id_of_allStrLe n v hle]

/-- C4 witness: the amended theorem applied to an object whose only string
leaf has length 2 at preview length 5. -/
theorem truncate_idempotent_when_short_witness :
    ((5 : Int) ≤ 0 ∨ allStrLe (Json.obj [("name", Json.str "hi")]) 5 = true) ∧
    truncateStrings (truncateStrings (Json.obj [("name", Json.str "hi")]) 5) 5 =
      truncateStrings (Json.obj [("name", Json.str "hi")]) 5 :=
  ⟨Or.inr (by decide),
    truncate_idempotent_when_short (Json.obj [("name", Json.str "hi")]) 5
      (Or.inr (by decide))⟩

/-- C4 counterexample: at `n = 5 ≥ 0`, the ten-character string truncates
to `abcde… (+5 chars)` (17 characters), and a second pass at 5 yields
`abcde… (+12 chars)` — the marker count changes, so
`truncate(truncate(v, n), n) ≠ truncate(v, n)`. -/
theorem truncate_not_idempotent :
    (0 : Int) ≤ 5 ∧
    truncateStrings (truncateStrings (Json.str "abcdefghij") 5) 5 ≠
      truncateStrings (Json.str "abcdefghij") 5 := by
  refine ⟨by decide, ?_⟩
  have h1 : truncateStrings (Json.str "abcdefghij") 5 =
      Json.str "abcde… (+5 chars)" := rfl
  have h2 : truncateStrings (truncateStrings (Json.str "abcdefghij") 5) 5 =
      Json.str "abcde… (+12 chars)" := rfl
  rw [h2, h1]
  intro hcon
  injection hcon with hs
  have hne : ("abcde… (+12 chars)" : String) ≠ "abcde… (+5 chars)" := by decide
  exact hne hs

/-- C9: the leaf contract of `truncateStrings`: `n ≤ 0` is the no-op
sentinel; a string of length at most `n` is unchanged; a longer string
becomes its first `n` characters followed by the literal marker
`… (+<elided> chars)` with the elided count rendered in decimal; objects
and arrays are rebuilt recursively preserving keys, order and length;
numbers, booleans and null are unchanged. -/
theorem truncateStrings_contract (v : Json) (n : Int) (s : String)
    (xs : List Json) (kvs : List (String × Json)) (b : Bool) (m : Int) :
    (n ≤ 0 → truncateStrings v n = v) ∧
    (0 < n → (s.length : Int) ≤ n → truncateStrings (Json.str s) n = Json.str s) ∧
    (0 < n → n < (s.length : Int) →
      truncateStrings (Json.str s) n =
        Json.str (strTake s n.toNat ++ "… (+" ++
          decRepr (s.length - n.toNat) ++ " chars)")) ∧
    (0 < n → truncateStrings (Json.obj kvs) n =
      Json.obj (kvs.map (fun kv => (kv.1, truncateStrings kv.2 n)))) ∧
    (0 < n → truncateStrings (Json.arr xs) n =
      Json.arr (xs.map (fun x => truncateStrings x n))) ∧
    truncateStrings Json.null n = Json.null ∧
    truncateStrings (Json.bool b) n = Json.bool b ∧
    truncateStrings (Json.num m) n = Json.num m := by
  refine ⟨?_, ?_, ?_, ?_, ?_, ?_, ?_, ?_⟩
  · intro hn
    exact truncateStrings_nonpos v n hn
  · intro hn hle
    have hn0 : ¬ (n ≤ 0) := by omega
    simp [truncateStrings, hn0, hle]
  · intro hn hgt
    have hn0 : ¬ (n ≤ 0) := by omega
    have hle0 : ¬ ((s.length : Int) ≤ n) := by omega
    simp [truncateStrings, hn0, hle0]
  · intro hn
    have hn0 : ¬ (n ≤ 0) := by omega
    simp [truncateStrings, hn0, truncateFields_eq_map]
  · intro hn
    have hn0 : ¬ (n ≤ 0) := by omega
    simp [truncateStrings, hn0, truncateElems_eq_map]
  · simp [truncateStrings]
  · simp [truncateStrings]
  · simp [truncateStrings]

/-- C9 witness: the contract applied at concrete leaves, including the
spec's scenario of a 10-character string at preview length 5 yielding the
5-character prefix plus the literal suffix `… (+5 chars)`. -/
theorem truncateStrings_contract_witness :
    truncateStrings (Json.str "abcdefghij") 5 = Json.str "abcde… (+5 chars)" ∧
    truncateStrings (Json.str "hi") 5 = Json.str "hi" ∧
    truncateStrings (Json.num 3) 5 = Json.num 3 ∧
    truncateStrings (Json.str "abcdefghij") 0 = Json.str "abcdefghij" := by
  have h := truncateStrings_contract (Json.str "abcdefghij") 5 "abcdefghij" [] [] true 3
  have h2 := truncateStrings_contract (Json.str "hi") 5 "hi" [] [] true 3
  have h0 := truncateStrings_contract (Json.str "abcdefghij") 0 "x" [] [] true 3
  have hm := truncateStrings_contract (Json.num 3) 5 "x" [] [] true 3
  refine ⟨?_, ?_, ?_, ?_⟩
  · have hx := h.2.2.1 (by decide) (by decide)
    rw [hx]
    rfl
  · exact h2.2.1 (by decide) (by decide)
  · exact hm.2.2.2.2.2.2.2
  · exact h0.1 (by decide)
